import Mathlib

/-!
Verification of the offline-first synchronization engine of the Coding-Verse
repository (`src/storage.ts`).

The embedding below is a shallow translation of `storage.ts` into Lean:

* the application-side tree types `Category` / `Problem` (the repository's
  `types.ts` is not shipped under `src/`, so the field set is taken from the
  spec's data model and the uses in `storage.ts` / `utils.ts`; `platform` and
  `difficulty` are carried as opaque strings since no claim inspects them);
* the remote tables (`categories`, `problems`, `user_problem_progress`) as
  lists of row structures, a snapshot `Db`;
* `loadData` as a total function of the database, the session, the per-fetch
  failure flags and the local-cache slot content — every `throw` site of the
  source sits inside a `try` whose `catch` produces a value, so the model's
  totality mirrors the source's never-throwing contract;
* the admin / sub-user branches of `saveDataToSupabase` as functions that
  return both the list of remote operations issued (`Op`) and the successor
  remote state (upsert = replace-by-primary-key plus insert, delete =
  filter-by-id, exactly the Supabase semantics used by the source);
* the retry/backoff `catch` handler of `saveDataToSupabase` as a recursive
  trace function driven by a per-attempt outcome oracle;
* the debounce scheduler of `saveData` (module-level `saveTimeout`,
  `lastSaveTime`, `SAVE_DEBOUNCE_MS`, `MIN_SAVE_INTERVAL_MS`) as a small-step
  state machine over timestamped call events, with `setTimeout` handles kept
  in an explicit list of live timers so that cancellation (`clearTimeout`) is
  a real operation and "at most one pending deferred write" is a theorem,
  not a typing artifact.  Remote writes are modelled as completing at the
  instant they are initiated with an authenticated session (so
  `lastSaveTime` is set to that instant); failures and retries are treated
  separately by the retry model.
-/

/-- Application-side problem record (spec §3; `types.ts` absent from `src/`,
fields as used by `storage.ts`).  `note` is optional in the TS type. -/
structure Problem where
  id : String
  title : String
  url : String
  platform : String
  difficulty : String
  completed : Bool
  note : Option String
deriving DecidableEq

/-- Application-side category record: an id, a title and its problems. -/
structure Category where
  id : String
  title : String
  problems : List Problem
deriving DecidableEq

/-- A row of the remote `categories` table as selected/written by
`storage.ts` (`id, title, order_index, user_id`). -/
structure CatRow where
  id : String
  title : String
  order_index : Nat
  user_id : String
deriving DecidableEq

/-- A row of the remote `problems` table as selected/written by
`storage.ts`. -/
structure ProbRow where
  id : String
  category_id : String
  title : String
  url : String
  platform : String
  difficulty : String
  completed : Bool
  note : Option String
  user_id : String
deriving DecidableEq

/-- A row of the remote `user_problem_progress` table
(`user_id, problem_id, completed, note`). -/
structure OverlayRow where
  user_id : String
  problem_id : String
  completed : Bool
  note : Option String
deriving DecidableEq

/-- A snapshot of the three remote tables. -/
structure Db where
  categories : List CatRow
  problems : List ProbRow
  progress : List OverlayRow
deriving DecidableEq

/-- Insert a category row into a list sorted by ascending `order_index`
(model of the `.order(order_index, ascending: true)` modifier). -/
def insertByOrder (c : CatRow) : List CatRow → List CatRow
  | [] => [c]
  | x :: xs =>
    if c.order_index ≤ x.order_index then c :: x :: xs
    else x :: insertByOrder c xs

/-- Sort category rows by ascending `order_index`. -/
def sortByOrder (l : List CatRow) : List CatRow :=
  l.foldr insertByOrder []

/-- The `progressByProblem` map of `loadData` (lines 109–112): rows are
inserted in list order with `Map.set`, so a later row with the same
`problem_id` overwrites an earlier one; values are normalized as
`(!!completed, note ?? "")`. -/
def progressLookup (rows : List OverlayRow) (pid : String) : Option (Bool × String) :=
  rows.foldl
    (fun acc r => if r.problem_id == pid then some (r.completed, r.note.getD "") else acc)
    none

/-- Sub-user branch of `loadData` (lines 90–135): read the shared catalog
(all category rows ordered by `order_index`, all problem rows), fetch the
caller's own overlay rows (`.eq(user_id, currentUserId)`), and render each
problem with `completed = overlay ? overlay.completed : false`,
`note = overlay ? overlay.note ?? "" : ""`. -/
def loadSub (db : Db) (uid : String) : List Category :=
  let cats := sortByOrder db.categories
  let prog := db.progress.filter (fun r => r.user_id == uid)
  cats.map (fun cat =>
    { id := cat.id
      title := cat.title
      problems :=
        (db.problems.filter (fun p => p.category_id == cat.id)).map (fun p =>
          match progressLookup prog p.id with
          | some (c, n) =>
            { id := p.id, title := p.title, url := p.url, platform := p.platform
              difficulty := p.difficulty, completed := c, note := some n }
          | none =>
            { id := p.id, title := p.title, url := p.url, platform := p.platform
              difficulty := p.difficulty, completed := false, note := some "" }) })

/-- Admin branch of `loadData` (lines 57–89): category and problem rows are
fetched with `.eq(user_id, currentUserId)` and projected directly
(`completed`/`note` straight from the problem row, no overlay). -/
def loadAdmin (db : Db) (uid : String) : List Category :=
  let cats := sortByOrder (db.categories.filter (fun c => c.user_id == uid))
  let probs := db.problems.filter (fun p => p.user_id == uid)
  cats.map (fun cat =>
    { id := cat.id
      title := cat.title
      problems :=
        (probs.filter (fun p => p.category_id == cat.id)).map (fun p =>
          { id := p.id, title := p.title, url := p.url, platform := p.platform
            difficulty := p.difficulty, completed := p.completed, note := p.note }) })

/-- The bundled sample catalog returned by `loadData` when the local cache
is empty (lines 152–179). -/
def sampleData : List Category :=
  [{ id := "default-1"
     title := "Sample Problems"
     problems :=
       [{ id := "p1", title := "Two Sum"
          url := "https://leetcode.com/problems/two-sum/"
          platform := "LeetCode", difficulty := "Easy"
          completed := false, note := some "" },
        { id := "p2", title := "Add Two Numbers"
          url := "https://leetcode.com/problems/add-two-numbers/"
          platform := "LeetCode", difficulty := "Medium"
          completed := false, note := some "" }] }]

/-- The local-storage fallback of `loadData` (lines 146–185).  `localRaw`
models `localStorage.getItem` + `JSON.parse` combined: `.error` when either
throws (source returns `[]` from the inner `catch`), `.ok l` when the slot
parses to `l` (an absent slot parses to `[]`).  An empty parse result yields
the bundled sample catalog. -/
def localFallback (localRaw : Except Unit (List Category)) : List Category :=
  match localRaw with
  | .error _ => []
  | .ok l => if l.length = 0 then sampleData else l

/-- `loadData` (lines 48–186) as a function of the remote snapshot, the
session (`none` = no session), the admin-allowlist answer, and per-step
failure flags: `sessionOk` is `getSession` resolving, `catOk` / `probOk` /
`progOk` are the three row fetches succeeding (a `false` flag is the
corresponding fetch throwing, caught at line 137 and falling through to the
local fallback; `getIsAdminUser` itself never throws — it catches
internally and fails closed).  On a successful remote path the source's
`if (categoriesData && problemsData)` guard always holds, so the branch
returns the merged tree. -/
def loadData (db : Db) (session : Option String) (adminFlag : Bool)
    (sessionOk catOk probOk progOk : Bool)
    (localRaw : Except Unit (List Category)) : List Category :=
  let remoteResult : Option (List Category) :=
    if !sessionOk then none
    else
      match session with
      | none => none
      | some uid =>
        if adminFlag then
          if catOk && probOk then some (loadAdmin db uid) else none
        else
          if catOk && probOk && progOk then some (loadSub db uid) else none
  match remoteResult with
  | some cats => cats
  | none => localFallback localRaw

/-- A remote write operation issued by `saveDataToSupabase`, in issue
order. -/
inductive Op
  | upsertCategories (payload : List CatRow)
  | upsertProblems (payload : List ProbRow)
  | deleteProblems (ids : List String)
  | deleteCategories (ids : List String)
  | upsertProgress (payload : List OverlayRow)
deriving DecidableEq

/-- `categoriesPayload` of the admin branch (lines 261–266): `order_index`
is the position of the category in the desired tree. -/
def categoriesPayload (cats : List Category) (uid : String) : List CatRow :=
  cats.enum.map (fun ic => ⟨ic.2.id, ic.2.title, ic.1, uid⟩)

/-- `problemsPayload` of the admin branch (lines 275–287). -/
def problemsPayload (cats : List Category) (uid : String) : List ProbRow :=
  cats.flatMap (fun c =>
    c.problems.map (fun p =>
      ⟨p.id, c.id, p.title, p.url, p.platform, p.difficulty, p.completed, p.note, uid⟩))

/-- `progressPayload` of the sub-user branch (lines 336–343): one overlay
row per problem of the supplied tree, keyed to the caller. -/
def progressPayload (cats : List Category) (uid : String) : List OverlayRow :=
  cats.flatMap (fun c =>
    c.problems.map (fun p => ⟨uid, p.id, p.completed, p.note⟩))

/-- `desiredCategoryIds` (line 297). -/
def desiredCategoryIds (cats : List Category) : List String :=
  cats.map (fun c => c.id)

/-- `desiredProblemIds` (lines 298–300). -/
def desiredProblemIds (cats : List Category) : List String :=
  cats.flatMap (fun c => c.problems.map (fun p => p.id))

/-- `problemsToDelete` (lines 306–308): existing problem ids absent from
the desired tree. -/
def problemsToDelete (existingProbIds : List String) (cats : List Category) : List String :=
  existingProbIds.filter (fun i => !(desiredProblemIds cats).contains i)

/-- `categoriesToDelete` (lines 302–304): existing category ids absent from
the desired tree. -/
def categoriesToDelete (existingCatIds : List String) (cats : List Category) : List String :=
  existingCatIds.filter (fun i => !(desiredCategoryIds cats).contains i)

/-- The operations issued by the admin branch of `saveDataToSupabase`
(lines 239–333), given the ids of the admin's existing remote rows (fetched
before any write): upsert categories, upsert problems, then — skipping empty
lists — delete the problems absent from the desired tree, then the
categories absent from it. -/
def adminSaveOps (existingCatIds existingProbIds : List String)
    (cats : List Category) (uid : String) : List Op :=
  [Op.upsertCategories (categoriesPayload cats uid),
   Op.upsertProblems (problemsPayload cats uid)]
  ++ (if (problemsToDelete existingProbIds cats).isEmpty then []
      else [Op.deleteProblems (problemsToDelete existingProbIds cats)])
  ++ (if (categoriesToDelete existingCatIds cats).isEmpty then []
      else [Op.deleteCategories (categoriesToDelete existingCatIds cats)])

/-- Supabase `upsert(payload, onConflict: key)`: rows whose key matches a
payload row are replaced by it, payload rows with a fresh key are
appended. -/
def upsertBy {α : Type} (key : α → String) (rows payload : List α) : List α :=
  rows.map (fun r =>
    match payload.find? (fun p => key p == key r) with
    | some p => p
    | none => r)
  ++ payload.filter (fun p => !(rows.any (fun r => key r == key p)))

/-- The admin's remote rows (the tables restricted to `user_id = admin`,
which is the scope of every fetch, upsert and delete of the admin
branch). -/
structure AdminRemote where
  cats : List CatRow
  probs : List ProbRow
deriving DecidableEq

/-- The admin branch of `saveDataToSupabase` as a state transformer on the
admin's remote rows, paired with the operation trace: fetch existing ids,
upsert both payloads, then delete the set differences (problems first). -/
def adminSaveApply (s : AdminRemote) (cats : List Category) (uid : String) :
    AdminRemote × List Op :=
  let existingCatIds := s.cats.map (fun r => r.id)
  let existingProbIds := s.probs.map (fun r => r.id)
  let upCats := upsertBy (fun r => r.id) s.cats (categoriesPayload cats uid)
  let upProbs := upsertBy (fun r => r.id) s.probs (problemsPayload cats uid)
  (⟨upCats.filter (fun c => !(categoriesToDelete existingCatIds cats).contains c.id),
    upProbs.filter (fun p => !(problemsToDelete existingProbIds cats).contains p.id)⟩,
   adminSaveOps existingCatIds existingProbIds cats uid)

/-- The remote operations issued by one `saveDataToSupabase` call
(lines 227–356): nothing without a session; the admin catalog diff-save for
an admin; a single overlay upsert keyed to the caller for a sub-user. -/
def saveToSupabaseOps (session : Option String) (adminFlag : Bool)
    (s : AdminRemote) (cats : List Category) : List Op :=
  match session with
  | none => []
  | some uid =>
    if adminFlag then (adminSaveApply s cats uid).2
    else [Op.upsertProgress (progressPayload cats uid)]

/-- One event of a `saveData` call (lines 194–225), in program order. -/
inductive SaveEvent
  | localWrite (cats : List Category)
  | remoteAttempt (cats : List Category)
  | deferWrite (cats : List Category)
deriving DecidableEq

/-- `SAVE_DEBOUNCE_MS` (line 191). -/
def SAVE_DEBOUNCE_MS : Nat := 100

/-- `MIN_SAVE_INTERVAL_MS` (line 192). -/
def MIN_SAVE_INTERVAL_MS : Nat := 500

/-- The event sequence of one `saveData(categories, forceImmediate)` call
(lines 194–225): write the serialized tree to the local slot, then either
attempt the remote write immediately (`forceImmediate`, or cool-down
elapsed) or schedule a deferred write.  The remote attempt is the call to
`saveDataToSupabase`, issued whether or not a session exists. -/
def saveDataTrace (cats : List Category) (force : Bool)
    (now lastSave : Nat) : List SaveEvent :=
  SaveEvent.localWrite cats ::
    (if force then [SaveEvent.remoteAttempt cats]
     else if now - lastSave < MIN_SAVE_INTERVAL_MS then [SaveEvent.deferWrite cats]
     else [SaveEvent.remoteAttempt cats])

/-- Classification of a remote write failure, per the `catch` handler of
`saveDataToSupabase` (lines 357–380): the handler retries exactly when the
message contains `ERR_INSUFFICIENT_RESOURCES` or `rate limit`. -/
inductive WriteError
  | insufficientResources
  | rateLimited
  | other
deriving DecidableEq

/-- The retry guard of line 361–362: resource-exhaustion-class errors
qualify, everything else does not. -/
def isRetryableError : WriteError → Bool
  | .insufficientResources => true
  | .rateLimited => true
  | .other => false

/-- `MAX_RETRIES` (line 228). -/
def MAX_RETRIES : Nat := 3

/-- `BASE_DELAY` in milliseconds (line 229). -/
def BASE_DELAY : Nat := 1000

/-- One attempt of the retry cascade: the payload it carried, its
`retryCount`, and the backoff delay scheduled before the next attempt
(`none` when no retry follows). -/
structure SaveAttempt where
  payload : List Category
  attempt : Nat
  retryDelay : Option Nat
deriving DecidableEq

/-- The attempt trace of `saveDataToSupabase(categories, retryCount)`
(lines 227–381) driven by an outcome oracle: `outcome n` is the error (if
any) of the attempt with `retryCount = n`.  On a retryable error with
`retryCount < MAX_RETRIES` the handler schedules
`saveDataToSupabase(categories, retryCount + 1)` after
`BASE_DELAY * 2 ^ retryCount` ms and returns; in every other case the
handler returns without rethrowing (the `catch` has no `throw`), which is
why this model is a total function rather than an `Except`. -/
def saveRetryTrace (outcome : Nat → Option WriteError)
    (cats : List Category) (retryCount : Nat) : List SaveAttempt :=
  match outcome retryCount with
  | none => [⟨cats, retryCount, none⟩]
  | some e =>
    if h : retryCount < MAX_RETRIES then
      if isRetryableError e then
        ⟨cats, retryCount, some (BASE_DELAY * 2 ^ retryCount)⟩ ::
          saveRetryTrace outcome cats (retryCount + 1)
      else [⟨cats, retryCount, none⟩]
    else [⟨cats, retryCount, none⟩]
termination_by MAX_RETRIES - retryCount
decreasing_by omega

/-- A live `setTimeout` whose callback is
`saveDataToSupabase(payload)` (line 217–219): the handle, the instant it
fires, and the captured payload. -/
structure PendingTimer where
  id : Nat
  fireTime : Nat
  payload : List Category
deriving DecidableEq

/-- The scheduler state of `saveData`: the live (created, not yet fired or
cancelled) timers, the module variable `saveTimeout` (which may go stale —
the source never nulls it), `lastSaveTime`, a fresh-handle counter, and the
accumulated remote write attempts as `(time, payload)` pairs. -/
structure Sched where
  alive : List PendingTimer
  handle : Option Nat
  lastSaveTime : Nat
  nextId : Nat
  writes : List (Nat × List Category)
deriving DecidableEq

/-- Scheduler state at module load: no timer, `lastSaveTime = last0`
(`0` in the source, line 190; a nonzero value models a completed remote
write at instant `last0`). -/
def initSched (last0 : Nat) : Sched :=
  ⟨[], none, last0, 0, []⟩

/-- Event-loop progress up to instant `t`: every live timer due at or
before `t` fires, appending its remote write and setting `lastSaveTime` to
its fire time (the write is modelled as succeeding at initiation, see the
header note). -/
def fireDue (s : Sched) (t : Nat) : Sched :=
  let due := s.alive.filter (fun tm => tm.fireTime ≤ t)
  { s with
    alive := s.alive.filter (fun tm => !(tm.fireTime ≤ t : Bool))
    writes := s.writes ++ due.map (fun tm => (tm.fireTime, tm.payload))
    lastSaveTime := (due.map (fun tm => tm.fireTime)).getLastD s.lastSaveTime }

/-- `if (saveTimeout) clearTimeout(saveTimeout)` (lines 203–205): cancel
the timer whose handle is stored in `saveTimeout`, if still live. -/
def clearPending (s : Sched) : Sched :=
  match s.handle with
  | none => s
  | some h => { s with alive := s.alive.filter (fun tm => tm.id != h) }

/-- One `saveData(payload, force)` call arriving at instant `t`
(lines 194–225): due timers fire first (they are earlier macrotasks), the
pending timer is cancelled, then either an immediate remote write
(`forceImmediate`, or the cool-down has elapsed) or a new deferred timer at
`t + SAVE_DEBOUNCE_MS`.  The local-cache write of line 197 is modelled by
`saveDataTrace`. -/
def stepCall (s : Sched) (t : Nat) (payload : List Category) (force : Bool) : Sched :=
  let s1 := clearPending (fireDue s t)
  if force then
    { s1 with writes := s1.writes ++ [(t, payload)], lastSaveTime := t }
  else if t - s1.lastSaveTime < MIN_SAVE_INTERVAL_MS then
    { s1 with
      alive := s1.alive ++ [⟨s1.nextId, t + SAVE_DEBOUNCE_MS, payload⟩]
      handle := some s1.nextId
      nextId := s1.nextId + 1 }
  else
    { s1 with writes := s1.writes ++ [(t, payload)], lastSaveTime := t }

/-- Run a chronological list of `saveData` calls
(`(time, payload, forceImmediate)`). -/
def runCalls (s : Sched) : List (Nat × List Category × Bool) → Sched
  | [] => s
  | (t, p, f) :: rest => runCalls (stepCall s t p f) rest

/-- Let every remaining live timer fire (event-loop progress to the end of
time). -/
def flushAll (s : Sched) : Sched :=
  { s with
    alive := []
    writes := s.writes ++ s.alive.map (fun tm => (tm.fireTime, tm.payload))
    lastSaveTime := (s.alive.map (fun tm => tm.fireTime)).getLastD s.lastSaveTime }

/-- Concrete problem used by witnesses. -/
def demoProblem : Problem :=
  ⟨"p1", "Two Sum", "https://leetcode.com/problems/two-sum/", "LeetCode", "Easy", false, some ""⟩

/-- Concrete category used by witnesses. -/
def demoCat : Category := ⟨"c1", "Arrays", [demoProblem]⟩

/-- A second concrete category (distinct payloads for scheduler traces). -/
def demoCatB : Category := ⟨"c2", "Strings", []⟩

/-- A third concrete category. -/
def demoCatC : Category := ⟨"c3", "Graphs", []⟩

/-- `clearTimeout` touches only the timer list. -/
theorem clearPending_writes (s : Sched) : (clearPending s).writes = s.writes := by
  cases h : s.handle <;> simp [clearPending, h]

/-- `clearTimeout` leaves `lastSaveTime` alone. -/
theorem clearPending_lastSaveTime (s : Sched) :
    (clearPending s).lastSaveTime = s.lastSaveTime := by
  cases h : s.handle <;> simp [clearPending, h]

/-- C6: `load()` never throws and always returns some catalog: the model is
a total function (every `throw` site of the source is inside a `try` whose
`catch` yields a value, lines 137–144 and 182–185), and for every session
state and admin answer, when every remote fetch fails and the local cache
is empty, it returns the bundled sample catalog, which is non-empty. -/
theorem loadData_total_with_sample_fallback (db : Db) (session : Option String)
    (adminFlag sessionOk : Bool) :
    loadData db session adminFlag sessionOk false false false (Except.ok []) = sampleData
    ∧ sampleData ≠ [] := by
  constructor
  · cases sessionOk <;> cases session <;> cases adminFlag <;>
      simp [loadData, localFallback]
  · simp [sampleData]

/-- C9: a `forceImmediate` save bypasses the debounce policy: whatever the
scheduler state (in particular whatever the elapsed time since the last
completed remote write), the call appends a remote write attempt at its own
instant with its own payload, and `saveData`'s event list for a forced call
goes straight from the local write to the remote attempt. -/
theorem forceImmediate_bypasses_debounce (s : Sched) (t : Nat) (p : List Category) :
    (stepCall s t p true).writes = (fireDue s t).writes ++ [(t, p)]
    ∧ (stepCall s t p true).lastSaveTime = t
    ∧ ∀ now lastSave, saveDataTrace p true now lastSave =
        [SaveEvent.localWrite p, SaveEvent.remoteAttempt p] := by
  refine ⟨?_, ?_, fun now lastSave => rfl⟩
  · simp [stepCall, clearPending_writes]
  · simp [stepCall]

/-- C7 counterexample: the claim's round-trip consequence fails at the
concrete input `categories = []`.  `saveData([], true)` writes the empty
snapshot to the local slot (first event) — but a following `load()` with
every remote fetch failing and that slot content returns the bundled
sample catalog, not the empty snapshot. -/
theorem save_empty_snapshot_load_returns_sample :
    saveDataTrace [] true 0 0 = [SaveEvent.localWrite [], SaveEvent.remoteAttempt []]
    ∧ loadData ⟨[], [], []⟩ none true false false false false (Except.ok []) = sampleData
    ∧ sampleData ≠ ([] : List Category) := by
  refine ⟨rfl, rfl, ?_⟩
  simp [sampleData]

/-- C7 (amended): every `saveData` call emits the local-cache write of the
full snapshot as its very first event — before any remote interaction,
whatever `forceImmediate`, the elapsed time, or the session — and a
following `load()` with the remote failing returns that snapshot whenever
the snapshot is non-empty (an empty snapshot makes `load()` return the
bundled sample instead, see the counterexample). -/
theorem save_writes_local_first_and_roundtrips (cats : List Category) (force : Bool)
    (now lastSave : Nat) :
    (∃ restEvents, saveDataTrace cats force now lastSave =
        SaveEvent.localWrite cats :: restEvents
      ∧ ∀ e ∈ restEvents,
          e = SaveEvent.remoteAttempt cats ∨ e = SaveEvent.deferWrite cats)
    ∧ (∀ (db : Db) (session : Option String) (adminFlag sessionOk : Bool),
        cats ≠ [] →
        loadData db session adminFlag sessionOk false false false (Except.ok cats) = cats) := by
  constructor
  · refine ⟨_, rfl, ?_⟩
    intro e he
    by_cases hf : force
    · simp [hf] at he
      simp [he]
    · by_cases hn : now - lastSave < MIN_SAVE_INTERVAL_MS <;> simp [hf, hn] at he <;> simp [he]
  · intro db session adminFlag sessionOk hne
    have hlen : cats.length ≠ 0 := by
      simpa [List.length_eq_zero] using hne
    cases sessionOk <;> cases session <;> cases adminFlag <;>
      simp [loadData, localFallback, hlen]

/-- C7 witness: the amended round-trip at the concrete non-empty snapshot
`[demoCat]`. -/
theorem save_writes_local_first_and_roundtrips_witness :
    loadData ⟨[], [], []⟩ none false false false false false (Except.ok [demoCat]) = [demoCat] :=
  (save_writes_local_first_and_roundtrips [demoCat] false 0 0).2
    ⟨[], [], []⟩ none false false (by simp [demoCat])

/-- C8: a save with a session whose user is not an admin issues exactly one
remote operation — an overlay upsert — so no catalog (category/problem) row
is written or deleted; every overlay row is keyed to the caller's own user
id, and there is one row per problem of the supplied tree, in order. -/
theorem subuser_save_only_own_overlay (uid : String) (s : AdminRemote)
    (cats : List Category) :
    saveToSupabaseOps (some uid) false s cats =
      [Op.upsertProgress (progressPayload cats uid)]
    ∧ (∀ r ∈ progressPayload cats uid, r.user_id = uid)
    ∧ (progressPayload cats uid).map (fun r => r.problem_id) =
        (cats.flatMap (fun c => c.problems)).map (fun p => p.id) := by
  refine ⟨rfl, ?_, ?_⟩
  · intro r hr
    simp only [progressPayload, List.mem_flatMap, List.mem_map] at hr
    obtain ⟨c, -, p, -, rfl⟩ := hr
    rfl
  · induction cats with
    | nil => rfl
    | cons c cs ih =>
      simp only [progressPayload, List.flatMap_cons, List.map_append, List.map_map] at ih ⊢
      rw [ih]; rfl

/-- C8 witness: at a concrete sub-user save, the only operation is the
overlay upsert and its row is keyed to the caller. -/
theorem subuser_save_only_own_overlay_witness :
    saveToSupabaseOps (some "u1") false ⟨[], []⟩ [demoCat] =
      [Op.upsertProgress (progressPayload [demoCat] "u1")]
    ∧ (⟨"u1", "p1", false, some ""⟩ : OverlayRow).user_id = "u1" := by
  refine ⟨(subuser_save_only_own_overlay "u1" ⟨[], []⟩ [demoCat]).1, ?_⟩
  exact (subuser_save_only_own_overlay "u1" ⟨[], []⟩ [demoCat]).2.1
    ⟨"u1", "p1", false, some ""⟩ (by decide)

/-- C5: a write failing with resource-exhaustion-class errors is retried
with the same payload up to `MAX_RETRIES` further attempts, with the
doubling delays `1000, 2000, 4000` ms between attempts — strictly
increasing — after which the cascade ends (the `catch` handler returns
without rethrowing, which is why `saveRetryTrace` is a total function);
an error of any other kind is never retried. -/
theorem saveRetry_backoff_policy (outcome : Nat → Option WriteError)
    (cats : List Category) :
    ((∀ n, n ≤ MAX_RETRIES → ∃ e, outcome n = some e ∧ isRetryableError e = true) →
      saveRetryTrace outcome cats 0 =
        [⟨cats, 0, some 1000⟩, ⟨cats, 1, some 2000⟩, ⟨cats, 2, some 4000⟩,
         ⟨cats, 3, none⟩]
      ∧ List.Chain' (fun a b => a < b)
          ((saveRetryTrace outcome cats 0).filterMap SaveAttempt.retryDelay)
      ∧ ∀ a ∈ saveRetryTrace outcome cats 0, a.payload = cats)
    ∧ (∀ e, isRetryableError e = false → outcome 0 = some e →
        saveRetryTrace outcome cats 0 = [⟨cats, 0, none⟩]) := by
  constructor
  · intro h
    obtain ⟨e0, he0, hr0⟩ := h 0 (by decide)
    obtain ⟨e1, he1, hr1⟩ := h 1 (by decide)
    obtain ⟨e2, he2, hr2⟩ := h 2 (by decide)
    obtain ⟨e3, he3, hr3⟩ := h 3 (by decide)
    have htr : saveRetryTrace outcome cats 0 =
        [⟨cats, 0, some 1000⟩, ⟨cats, 1, some 2000⟩, ⟨cats, 2, some 4000⟩,
         ⟨cats, 3, none⟩] := by
      rw [saveRetryTrace, he0]
      simp only [MAX_RETRIES, BASE_DELAY, hr0, if_true, show (0:Nat) < 3 by norm_num, dif_pos]
      rw [saveRetryTrace, he1]
      simp only [MAX_RETRIES, BASE_DELAY, hr1, if_true, show (1:Nat) < 3 by norm_num, dif_pos]
      rw [saveRetryTrace, he2]
      simp only [MAX_RETRIES, BASE_DELAY, hr2, if_true, show (2:Nat) < 3 by norm_num, dif_pos]
      rw [saveRetryTrace, he3]
      simp only [MAX_RETRIES, show ¬ (3:Nat) < 3 by norm_num, dif_neg, not_false_iff]
      norm_num
    refine ⟨htr, ?_, ?_⟩
    · rw [htr]
      simp only [List.filterMap]
      refine List.Chain'.cons (by norm_num)
        (List.Chain'.cons (by norm_num) (List.chain'_singleton _))
    · rw [htr]
      intro a ha
      simp only [List.mem_cons, List.mem_singleton, List.not_mem_nil, or_false] at ha
      rcases ha with rfl | rfl | rfl | rfl <;> rfl
  · intro e hre he
    rw [saveRetryTrace, he]
    simp [hre]

/-- C5 witness: the concrete always-resource-exhausted oracle yields the
full four-attempt cascade with the doubling delays. -/
theorem saveRetry_backoff_policy_witness :
    saveRetryTrace (fun _ => some WriteError.insufficientResources) [demoCat] 0 =
      [⟨[demoCat], 0, some 1000⟩, ⟨[demoCat], 1, some 2000⟩,
       ⟨[demoCat], 2, some 4000⟩, ⟨[demoCat], 3, none⟩] :=
  ((saveRetry_backoff_policy (fun _ => some WriteError.insufficientResources) [demoCat]).1
    (fun _ _ => ⟨WriteError.insufficientResources, rfl, rfl⟩)).1

/-- The overlay-map fold yields `none` exactly when the accumulator was
`none` and no row matches the problem id. -/
theorem progressLookup_go_none (pid : String) (rows : List OverlayRow) :
    ∀ acc,
      (rows.foldl
          (fun acc r =>
            if r.problem_id == pid then some (r.completed, r.note.getD "") else acc)
          acc = none
        ↔ acc = none ∧ ∀ r ∈ rows, r.problem_id ≠ pid) := by
  induction rows with
  | nil => intro acc; simp
  | cons x xs ih =>
    intro acc
    simp only [List.foldl_cons]
    rw [ih]
    by_cases hx : x.problem_id = pid
    · simp [hx]
    · simp [hx]

/-- `progressByProblem.get(pid)` misses exactly when no fetched row has
this problem id. -/
theorem progressLookup_eq_none_iff (rows : List OverlayRow) (pid : String) :
    progressLookup rows pid = none ↔ ∀ r ∈ rows, r.problem_id ≠ pid := by
  unfold progressLookup
  rw [progressLookup_go_none]
  simp

/-- With a unique matching row, the overlay-map fold returns exactly that
row's normalized values, whatever the accumulator already holds. -/
theorem progressLookup_go_unique (pid : String) (r : OverlayRow)
    (hpid : r.problem_id = pid) :
    ∀ (rows : List OverlayRow) (acc : Option (Bool × String)),
      (∀ r2 ∈ rows, r2.problem_id = pid → r2 = r) →
      (r ∈ rows ∨ acc = some (r.completed, r.note.getD "")) →
      rows.foldl
          (fun acc r =>
            if r.problem_id == pid then some (r.completed, r.note.getD "") else acc)
          acc = some (r.completed, r.note.getD "") := by
  intro rows
  induction rows with
  | nil =>
    intro acc _ hmem
    rcases hmem with hm | ha
    · exact absurd hm (List.not_mem_nil r)
    · simpa using ha
  | cons x xs ih =>
    intro acc huniq hmem
    simp only [List.foldl_cons]
    by_cases hx : x.problem_id = pid
    · have hxr : x = r := huniq x (by simp) hx
      refine ih _ (fun r2 h2 hp2 => huniq r2 (List.mem_cons_of_mem _ h2) hp2) (Or.inr ?_)
      subst hxr
      simp [hx]
    · refine ih _ (fun r2 h2 hp2 => huniq r2 (List.mem_cons_of_mem _ h2) hp2) ?_
      rcases hmem with hm | ha
      · rcases List.mem_cons.mp hm with rfl | hm2
        · exact absurd hpid hx
        · exact Or.inl hm2
      · refine Or.inr ?_
        simpa [hx] using ha

/-- `progressByProblem.get(pid)` with a unique matching row returns that
row's normalized `(completed, note ?? "")`. -/
theorem progressLookup_unique (rows : List OverlayRow) (pid : String) (r : OverlayRow)
    (hmem : r ∈ rows) (hpid : r.problem_id = pid)
    (huniq : ∀ r2 ∈ rows, r2.problem_id = pid → r2 = r) :
    progressLookup rows pid = some (r.completed, r.note.getD "") :=
  progressLookup_go_unique pid r hpid rows none huniq (Or.inl hmem)

/-- C1: in the sub-user view rendered by `load()`, every problem shows
`completed = false, note = ""` when the caller has no overlay row for it,
and exactly the (unique) overlay row's `completed` / `note ?? ""` when one
exists; and overlay rows of other users never influence the result — the
view is unchanged when the overlay table is restricted to the caller's own
rows. -/
theorem loadData_subuser_overlay_exact (db : Db) (uid : String) :
    (∀ cat ∈ loadSub db uid, ∀ p ∈ cat.problems,
      ((¬ ∃ r ∈ db.progress, r.user_id = uid ∧ r.problem_id = p.id) →
        p.completed = false ∧ p.note = some "")
      ∧ (∀ r ∈ db.progress, r.user_id = uid → r.problem_id = p.id →
          (∀ r2 ∈ db.progress, r2.user_id = uid → r2.problem_id = p.id → r2 = r) →
          p.completed = r.completed ∧ p.note = some (r.note.getD "")))
    ∧ loadSub db uid =
        loadSub ⟨db.categories, db.problems,
                 db.progress.filter (fun r => r.user_id == uid)⟩ uid := by
  constructor
  · intro cat hcat p hp
    simp only [loadSub, List.mem_map] at hcat
    obtain ⟨crow, -, rfl⟩ := hcat
    simp only [List.mem_map, List.mem_filter] at hp
    obtain ⟨prow, -, rfl⟩ := hp
    rcases hlk : progressLookup (db.progress.filter (fun r => r.user_id == uid)) prow.id
      with - | ⟨c, n⟩
    · simp only [hlk]
      constructor
      · intro _
        simp
      · intro r hr hru hrp _
        have hall := (progressLookup_eq_none_iff _ _).mp hlk
        have hrf : r ∈ db.progress.filter (fun r => r.user_id == uid) :=
          List.mem_filter.mpr ⟨hr, by simp [hru]⟩
        exact absurd (by simpa using hrp) (hall r hrf)
    · simp only [hlk]
      constructor
      · intro hnex
        exfalso
        have : ¬ ∀ r ∈ db.progress.filter (fun r => r.user_id == uid),
            r.problem_id ≠ prow.id := by
          intro hall
          rw [← progressLookup_eq_none_iff] at hall
          rw [hall] at hlk
          exact Option.noConfusion hlk
        push_neg at this
        obtain ⟨r, hrf, hrp⟩ := this
        obtain ⟨hr, hru⟩ := List.mem_filter.mp hrf
        exact hnex ⟨r, hr, by simpa using hru, by simpa using hrp⟩
      · intro r hr hru hrp huniq
        have hrf : r ∈ db.progress.filter (fun r => r.user_id == uid) :=
          List.mem_filter.mpr ⟨hr, by simp [hru]⟩
        have huniqf : ∀ r2 ∈ db.progress.filter (fun r => r.user_id == uid),
            r2.problem_id = prow.id → r2 = r := by
          intro r2 h2 hp2
          obtain ⟨h2m, h2u⟩ := List.mem_filter.mp h2
          exact huniq r2 h2m (by simpa using h2u) (by simpa using hp2)
        have hlk2 := progressLookup_unique _ _ r hrf (by simpa using hrp) huniqf
        rw [hlk2] at hlk
        have hpair := Option.some.inj hlk
        have hc : c = r.completed := (congrArg Prod.fst hpair).symm
        have hn : n = r.note.getD "" := (congrArg Prod.snd hpair).symm
        exact ⟨hc, by rw [hn]⟩
  · simp only [loadSub]
    have hff :
        (db.progress.filter (fun r => r.user_id == uid)).filter
            (fun r => r.user_id == uid) =
          db.progress.filter (fun r => r.user_id == uid) := by
      rw [List.filter_filter]
      simp
    rw [hff]

/-- Concrete remote snapshot for witnesses: one shared category and
problem, an overlay row for user `u1` and one for another user `u2`. -/
def demoDb : Db :=
  ⟨[⟨"c1", "Arrays", 0, "admin"⟩],
   [⟨"p1", "c1", "Two Sum", "https://leetcode.com/problems/two-sum/", "LeetCode", "Easy",
     false, none, "admin"⟩],
   [⟨"u1", "p1", true, some "done"⟩, ⟨"u2", "p1", false, some "other"⟩]⟩

/-- The category as rendered for sub-user `u1` from `demoDb`. -/
def demoRenderedCat : Category :=
  ⟨"c1", "Arrays",
   [⟨"p1", "Two Sum", "https://leetcode.com/problems/two-sum/", "LeetCode", "Easy",
     true, some "done"⟩]⟩

/-- The problem as rendered for sub-user `u1` from `demoDb`. -/
def demoRenderedProblem : Problem :=
  ⟨"p1", "Two Sum", "https://leetcode.com/problems/two-sum/", "LeetCode", "Easy",
   true, some "done"⟩

/-- C1 witness: in the concrete rendered view for `u1`, the problem shows
exactly `u1`'s overlay values. -/
theorem loadData_subuser_overlay_exact_witness :
    demoRenderedCat ∈ loadSub demoDb "u1"
    ∧ demoRenderedProblem.completed = (⟨"u1", "p1", true, some "done"⟩ : OverlayRow).completed
    ∧ demoRenderedProblem.note =
        some ((⟨"u1", "p1", true, some "done"⟩ : OverlayRow).note.getD "") := by
  refine ⟨by decide, ?_, ?_⟩
  · exact (((loadData_subuser_overlay_exact demoDb "u1").1 demoRenderedCat (by decide)
      demoRenderedProblem (by decide)).2 ⟨"u1", "p1", true, some "done"⟩ (by decide)
      rfl rfl (by decide)).1
  · exact (((loadData_subuser_overlay_exact demoDb "u1").1 demoRenderedCat (by decide)
      demoRenderedProblem (by decide)).2 ⟨"u1", "p1", true, some "done"⟩ (by decide)
      rfl rfl (by decide)).2

/-- A `deleteProblems` operation occurs in an admin save trace exactly for
the (non-empty) `problemsToDelete` list. -/
theorem deleteProblems_mem_adminSaveOps (existingCatIds existingProbIds : List String)
    (cats : List Category) (uid : String) (ids : List String) :
    Op.deleteProblems ids ∈ adminSaveOps existingCatIds existingProbIds cats uid
      ↔ ¬ (problemsToDelete existingProbIds cats).isEmpty
        ∧ ids = problemsToDelete existingProbIds cats := by
  simp only [adminSaveOps]
  by_cases h1 : (problemsToDelete existingProbIds cats).isEmpty <;>
    by_cases h2 : (categoriesToDelete existingCatIds cats).isEmpty <;>
      simp [h1, h2]

/-- A `deleteCategories` operation occurs in an admin save trace exactly
for the (non-empty) `categoriesToDelete` list. -/
theorem deleteCategories_mem_adminSaveOps (existingCatIds existingProbIds : List String)
    (cats : List Category) (uid : String) (ids : List String) :
    Op.deleteCategories ids ∈ adminSaveOps existingCatIds existingProbIds cats uid
      ↔ ¬ (categoriesToDelete existingCatIds cats).isEmpty
        ∧ ids = categoriesToDelete existingCatIds cats := by
  simp only [adminSaveOps]
  by_cases h1 : (problemsToDelete existingProbIds cats).isEmpty <;>
    by_cases h2 : (categoriesToDelete existingCatIds cats).isEmpty <;>
      simp [h1, h2]

/-- C2: in every admin save trace, the problem ids deleted are exactly the
existing ids minus the desired ids, likewise for category ids — no other
row is deleted — and the trace is the two upserts, then (possibly) one
problems-delete, then (possibly) one categories-delete, so problem rows
are always deleted before category rows. -/
theorem adminSave_deletes_are_set_difference (existingCatIds existingProbIds : List String)
    (cats : List Category) (uid : String) :
    (∀ x, (∃ ids, Op.deleteProblems ids ∈ adminSaveOps existingCatIds existingProbIds cats uid
            ∧ x ∈ ids)
        ↔ x ∈ existingProbIds ∧ x ∉ desiredProblemIds cats)
    ∧ (∀ x, (∃ ids, Op.deleteCategories ids ∈ adminSaveOps existingCatIds existingProbIds cats uid
            ∧ x ∈ ids)
        ↔ x ∈ existingCatIds ∧ x ∉ desiredCategoryIds cats)
    ∧ ∃ dp dc, adminSaveOps existingCatIds existingProbIds cats uid =
        [Op.upsertCategories (categoriesPayload cats uid),
         Op.upsertProblems (problemsPayload cats uid)] ++ dp ++ dc
      ∧ (∀ op ∈ dp, ∃ ids, op = Op.deleteProblems ids)
      ∧ (∀ op ∈ dc, ∃ ids, op = Op.deleteCategories ids) := by
  refine ⟨?_, ?_, ?_⟩
  · intro x
    constructor
    · rintro ⟨ids, hmem, hx⟩
      obtain ⟨-, rfl⟩ := (deleteProblems_mem_adminSaveOps _ _ _ _ _).mp hmem
      obtain ⟨hex, hc⟩ := List.mem_filter.mp hx
      exact ⟨hex, by simpa using hc⟩
    · rintro ⟨hex, hnd⟩
      have hxpd : x ∈ problemsToDelete existingProbIds cats :=
        List.mem_filter.mpr ⟨hex, by simp [hnd]⟩
      refine ⟨problemsToDelete existingProbIds cats, ?_, hxpd⟩
      rw [deleteProblems_mem_adminSaveOps]
      exact ⟨by simp [List.ne_nil_of_mem hxpd], rfl⟩
  · intro x
    constructor
    · rintro ⟨ids, hmem, hx⟩
      obtain ⟨-, rfl⟩ := (deleteCategories_mem_adminSaveOps _ _ _ _ _).mp hmem
      obtain ⟨hex, hc⟩ := List.mem_filter.mp hx
      exact ⟨hex, by simpa using hc⟩
    · rintro ⟨hex, hnd⟩
      have hxcd : x ∈ categoriesToDelete existingCatIds cats :=
        List.mem_filter.mpr ⟨hex, by simp [hnd]⟩
      refine ⟨categoriesToDelete existingCatIds cats, ?_, hxcd⟩
      rw [deleteCategories_mem_adminSaveOps]
      exact ⟨by simp [List.ne_nil_of_mem hxcd], rfl⟩
  · refine ⟨(if (problemsToDelete existingProbIds cats).isEmpty then []
        else [Op.deleteProblems (problemsToDelete existingProbIds cats)]),
      (if (categoriesToDelete existingCatIds cats).isEmpty then []
        else [Op.deleteCategories (categoriesToDelete existingCatIds cats)]),
      rfl, ?_, ?_⟩
    · by_cases h1 : (problemsToDelete existingProbIds cats).isEmpty <;> simp [h1]
    · by_cases h2 : (categoriesToDelete existingCatIds cats).isEmpty <;> simp [h2]

/-- C2 witness: with existing category ids `["c1", "cX"]` and the desired
tree `[demoCat]` (category id `c1`), the stale id `cX` appears in a
categories-delete of the trace. -/
theorem adminSave_deletes_are_set_difference_witness :
    ∃ ids, Op.deleteCategories ids ∈ adminSaveOps ["c1", "cX"] ["p1"] [demoCat] "u1"
      ∧ "cX" ∈ ids :=
  ((adminSave_deletes_are_set_difference ["c1", "cX"] ["p1"] [demoCat] "u1").2.1 "cX").mpr
    ⟨by decide, by decide⟩

/-- C3 counterexample: a completed remote write at instant `0`
(`forceImmediate`), then two debounced `saveData` calls at instants `100`
and `350` — each within the minimum save interval of the last completed
remote write (`100 - 0 < 500`; `350 - 0 < 500` and, against the write the
first deferred timer completed at instant `200`, `350 - 200 < 500`) —
produce TWO remote writes (at `200` and `450`), not exactly one: the first
call's deferred timer fires at `200`, before the second call arrives. -/
theorem debounced_calls_two_writes_counterexample :
    (100 - 0 < MIN_SAVE_INTERVAL_MS ∧ 350 - 0 < MIN_SAVE_INTERVAL_MS
      ∧ 350 - 200 < MIN_SAVE_INTERVAL_MS)
    ∧ (flushAll (runCalls (initSched 0)
        [(0, [demoCat], true), (100, [demoCatB], false), (350, [demoCatC], false)])).writes
      = [(0, [demoCat]), (200, [demoCatB]), (450, [demoCatC])]
    ∧ ((flushAll (runCalls (initSched 0)
        [(0, [demoCat], true), (100, [demoCatB], false), (350, [demoCatC], false)])).writes.drop 1).length
      = 2 := by
  refine ⟨by decide, by decide, by decide⟩

/-- Processing further debounced calls from a state holding exactly the
previous call's deferred timer: when every call stays within the cool-down
window of `lastSaveTime` and arrives before the previous timer fires, the
pending timer is replaced call by call and no write is emitted. -/
theorem runCalls_debounced_aux (last0 : Nat) (rest : List (Nat × List Category)) :
    ∀ (i tp : Nat) (pp : List Category) (w : List (Nat × List Category)),
      (∀ c ∈ rest, c.1 - last0 < MIN_SAVE_INTERVAL_MS) →
      List.Chain' (fun a b => b.1 < a.1 + SAVE_DEBOUNCE_MS) ((tp, pp) :: rest) →
      runCalls ⟨[⟨i, tp + SAVE_DEBOUNCE_MS, pp⟩], some i, last0, i + 1, w⟩
          (rest.map (fun c => (c.1, c.2, false)))
        = ⟨[⟨i + rest.length, (rest.getLastD (tp, pp)).1 + SAVE_DEBOUNCE_MS,
            (rest.getLastD (tp, pp)).2⟩],
           some (i + rest.length), last0, i + rest.length + 1, w⟩ := by
  induction rest with
  | nil =>
    intro i tp pp w _ _
    simp [runCalls]
  | cons c rest ih =>
    obtain ⟨t, p⟩ := c
    intro i tp pp w hwin hgap
    have hlt : t < tp + SAVE_DEBOUNCE_MS := (List.chain'_cons.mp hgap).1
    have hgap2 : List.Chain' (fun a b => b.1 < a.1 + SAVE_DEBOUNCE_MS) ((t, p) :: rest) :=
      (List.chain'_cons.mp hgap).2
    have hstep : stepCall ⟨[⟨i, tp + SAVE_DEBOUNCE_MS, pp⟩], some i, last0, i + 1, w⟩ t p false
        = ⟨[⟨i + 1, t + SAVE_DEBOUNCE_MS, p⟩], some (i + 1), last0, i + 2, w⟩ := by
      simp [stepCall, fireDue, clearPending, Nat.not_le.mpr hlt, hwin (t, p) (by simp)]
    rw [List.map_cons]
    simp only [runCalls]
    rw [hstep, ih (i + 1) t p w (fun c hc => hwin c (by simp [hc])) hgap2,
      List.getLastD_cons]
    have hlen : i + 1 + rest.length = i + (rest.length + 1) := by omega
    simp [hlen]

/-- C3 (amended): N ≥ 1 debounced `saveData` calls, each within the minimum
save interval of the last completed remote write AND each subsequent call
arriving before the previously scheduled deferred write fires (within the
debounce delay of the previous call), produce exactly one remote write,
carrying the payload of the last call, fired one debounce delay after it. -/
theorem debounced_calls_coalesce_within_debounce_delay (last0 t1 : Nat)
    (p1 : List Category) (rest : List (Nat × List Category))
    (hwin : ∀ c ∈ (t1, p1) :: rest, c.1 - last0 < MIN_SAVE_INTERVAL_MS)
    (hgap : List.Chain' (fun a b => b.1 < a.1 + SAVE_DEBOUNCE_MS) ((t1, p1) :: rest)) :
    (flushAll (runCalls (initSched last0)
        (((t1, p1) :: rest).map (fun c => (c.1, c.2, false))))).writes
      = [((rest.getLastD (t1, p1)).1 + SAVE_DEBOUNCE_MS, (rest.getLastD (t1, p1)).2)] := by
  have hstep : stepCall (initSched last0) t1 p1 false
      = ⟨[⟨0, t1 + SAVE_DEBOUNCE_MS, p1⟩], some 0, last0, 1, []⟩ := by
    simp [stepCall, fireDue, clearPending, initSched, hwin (t1, p1) (by simp)]
  rw [List.map_cons]
  simp only [runCalls]
  rw [hstep,
    runCalls_debounced_aux last0 rest 0 t1 p1 [] (fun c hc => hwin c (by simp [hc])) hgap]
  simp [flushAll]

/-- C3 witness: two debounced calls 70 ms apart (within the 100 ms debounce
delay and inside the 500 ms window) coalesce into the single remote write
`(220, [demoCatB])`. -/
theorem debounced_calls_coalesce_within_debounce_delay_witness :
    (flushAll (runCalls (initSched 0)
        [(50, [demoCat], false), (120, [demoCatB], false)])).writes
      = [(220, [demoCatB])] := by
  have h := debounced_calls_coalesce_within_debounce_delay 0 50 [demoCat]
    [(120, [demoCatB])]
    (by intro c hc; fin_cases hc <;> decide)
    (List.Chain'.cons (by decide) (List.chain'_singleton _))
  simpa using h

/-- The module variable `saveTimeout` accounts for every live timer: the
key invariant behind «at most one pending deferred write». -/
def Covered (s : Sched) : Prop :=
  ∀ tm ∈ s.alive, s.handle = some tm.id

/-- Firing due timers only shrinks the live list, so coverage is kept. -/
theorem covered_fireDue (s : Sched) (t : Nat) (h : Covered s) :
    Covered (fireDue s t) := by
  intro tm hm
  exact h tm (List.mem_filter.mp hm).1

/-- In a covered state, `clearTimeout(saveTimeout)` cancels every live
timer. -/
theorem clearPending_alive_nil (s : Sched) (h : Covered s) :
    (clearPending s).alive = [] := by
  cases hh : s.handle with
  | none =>
    simp only [clearPending, hh]
    cases ha : s.alive with
    | nil => rfl
    | cons x xs =>
      have := h x (by simp [ha])
      rw [hh] at this
      exact Option.noConfusion this
  | some k =>
    simp only [clearPending, hh]
    refine List.filter_eq_nil_iff.mpr ?_
    intro tm hm
    have hc := h tm hm
    rw [hh] at hc
    have : tm.id = k := (Option.some.inj hc).symm
    simp [this]

/-- After any `saveData` call, either no timer is live, or the single live
timer is the one this call just scheduled (debounced, so `force = false`),
and `saveTimeout` holds its handle. -/
theorem stepCall_alive_shape (s : Sched) (t : Nat) (p : List Category) (f : Bool)
    (h : Covered s) :
    (stepCall s t p f).alive = [] ∨
    (f = false ∧ ∃ j, (stepCall s t p f).alive = [⟨j, t + SAVE_DEBOUNCE_MS, p⟩]
      ∧ (stepCall s t p f).handle = some j) := by
  have h1 : (clearPending (fireDue s t)).alive = [] :=
    clearPending_alive_nil _ (covered_fireDue s t h)
  cases f with
  | true =>
    left
    simp only [stepCall, if_true]
    exact h1
  | false =>
    by_cases hd : t - (clearPending (fireDue s t)).lastSaveTime < MIN_SAVE_INTERVAL_MS
    · right
      refine ⟨rfl, (clearPending (fireDue s t)).nextId, ?_, ?_⟩ <;>
        simp [stepCall, hd, h1]
    · left
      simp only [stepCall, if_false, Bool.false_eq_true, if_neg hd]
      exact h1

/-- Every `saveData` call preserves timer coverage. -/
theorem covered_stepCall (s : Sched) (t : Nat) (p : List Category) (f : Bool)
    (h : Covered s) : Covered (stepCall s t p f) := by
  rcases stepCall_alive_shape s t p f h with hnil | ⟨-, j, ha, hh⟩
  · intro tm hm
    rw [hnil] at hm
    exact absurd hm (List.not_mem_nil tm)
  · intro tm hm
    rw [ha] at hm
    rcases List.mem_singleton.mp hm with rfl
    exact hh

/-- Coverage holds along any run of calls. -/
theorem covered_runCalls (calls : List (Nat × List Category × Bool)) :
    ∀ s, Covered s → Covered (runCalls s calls) := by
  induction calls with
  | nil => intro s h; exact h
  | cons c rest ih =>
    obtain ⟨t, p, f⟩ := c
    intro s h
    simp only [runCalls]
    exact ih _ (covered_stepCall s t p f h)

/-- Running a concatenation of call lists is running them in sequence. -/
theorem runCalls_append (l1 l2 : List (Nat × List Category × Bool)) :
    ∀ s, runCalls s (l1 ++ l2) = runCalls (runCalls s l1) l2 := by
  induction l1 with
  | nil => intro s; rfl
  | cons c rest ih =>
    obtain ⟨t, p, f⟩ := c
    intro s
    simp only [List.cons_append, runCalls]
    exact ih _

/-- C10: from module load, after any sequence of `saveData` calls, at most
one deferred remote write is pending; the `saveTimeout` variable holds its
handle; and the pending timer — when there is one — was scheduled by the
final call of the sequence (a debounced one), carrying that call's payload:
a superseded debounced write never stays pending after a later call. -/
theorem at_most_one_pending_deferred_write (last0 : Nat)
    (calls : List (Nat × List Category × Bool)) :
    (runCalls (initSched last0) calls).alive.length ≤ 1
    ∧ ∀ tm ∈ (runCalls (initSched last0) calls).alive,
        (runCalls (initSched last0) calls).handle = some tm.id
        ∧ ∃ pre t p, calls = pre ++ [(t, p, false)]
            ∧ tm.fireTime = t + SAVE_DEBOUNCE_MS ∧ tm.payload = p := by
  rcases List.eq_nil_or_concat calls with rfl | ⟨pre, c, rfl⟩
  · exact ⟨by simp [runCalls, initSched], by simp [runCalls, initSched]⟩
  · obtain ⟨t, p, f⟩ := c
    have hcov : Covered (runCalls (initSched last0) pre) :=
      covered_runCalls pre _ (fun tm hm => absurd hm (List.not_mem_nil tm))
    rw [List.concat_eq_append, runCalls_append]
    simp only [runCalls]
    rcases stepCall_alive_shape (runCalls (initSched last0) pre) t p f hcov
      with hnil | ⟨hf, j, ha, hh⟩
    · constructor
      · rw [hnil]; simp
      · intro tm hm
        rw [hnil] at hm
        exact absurd hm (List.not_mem_nil tm)
    · constructor
      · rw [ha]; simp
      · intro tm hm
        rw [ha] at hm
        rcases List.mem_singleton.mp hm with rfl
        subst hf
        exact ⟨hh, pre, t, p, rfl, rfl, rfl⟩

/-- C10 witness: one concrete debounced call leaves exactly one pending
timer, whose handle `saveTimeout` holds. -/
theorem at_most_one_pending_deferred_write_witness :
    (runCalls (initSched 0) [(10, [demoCat], false)]).alive.length ≤ 1
    ∧ (runCalls (initSched 0) [(10, [demoCat], false)]).handle = some 0 := by
  refine ⟨(at_most_one_pending_deferred_write 0 [(10, [demoCat], false)]).1, ?_⟩
  exact ((at_most_one_pending_deferred_write 0 [(10, [demoCat], false)]).2
    ⟨0, 110, [demoCat]⟩ (by decide)).1

/-- With key-distinct payload rows, `find?` by key returns a member
itself. -/
theorem find?_key_eq_of_nodup {α : Type} (key : α → String) (payload : List α) (r : α)
    (hnd : (payload.map key).Nodup) (hr : r ∈ payload) :
    payload.find? (fun p => key p == key r) = some r := by
  induction payload with
  | nil => exact absurd hr (List.not_mem_nil r)
  | cons x xs ih =>
    rw [List.map_cons, List.nodup_cons] at hnd
    rcases List.mem_cons.mp hr with rfl | hr2
    · exact List.find?_cons_of_pos _ (by simp)
    · have hne : key x ≠ key r := by
        intro he
        exact hnd.1 (he ▸ List.mem_map_of_mem key hr2)
      rw [List.find?_cons_of_neg _ (by simp [hne])]
      exact ih hnd.2 hr2

/-- The replace-matching-rows half of an upsert keeps every row key. -/
theorem map_key_upsertBy_left {α : Type} (key : α → String) (rows payload : List α) :
    (rows.map (fun r =>
      match payload.find? (fun p => key p == key r) with
      | some p => p
      | none => r)).map key = rows.map key := by
  rw [List.map_map]
  refine List.map_congr_left ?_
  intro r _
  cases hf : payload.find? (fun p => key p == key r) with
  | none => simp [hf]
  | some p =>
    have hbeq := List.find?_some hf
    simp only [Function.comp_apply, hf]
    exact eq_of_beq hbeq

/-- Upsert, then delete the keys that existed before but are not desired
(the admin save body, generically in the row type). -/
def upsertThenDelete {α : Type} (key : α → String) (desired : List String)
    (rows payload : List α) : List α :=
  (upsertBy key rows payload).filter
    (fun r => !((rows.map key).filter (fun i => !desired.contains i)).contains (key r))

/-- The category table after an admin save is an `upsertThenDelete`. -/
theorem adminSaveApply_fst_cats (s : AdminRemote) (cats : List Category) (uid : String) :
    (adminSaveApply s cats uid).1.cats =
      upsertThenDelete (fun r => r.id) (desiredCategoryIds cats) s.cats
        (categoriesPayload cats uid) := rfl

/-- The problem table after an admin save is an `upsertThenDelete`. -/
theorem adminSaveApply_fst_probs (s : AdminRemote) (cats : List Category) (uid : String) :
    (adminSaveApply s cats uid).1.probs =
      upsertThenDelete (fun r => r.id) (desiredProblemIds cats) s.probs
        (problemsPayload cats uid) := rfl

/-- Every row surviving an upsert-then-delete is a payload row. -/
theorem upsertThenDelete_subset {α : Type} (key : α → String) (desired : List String)
    (rows payload : List α) (hdes : desired = payload.map key) :
    ∀ r ∈ upsertThenDelete key desired rows payload, r ∈ payload := by
  subst hdes
  intro r hr
  obtain ⟨hup, hkeep⟩ := List.mem_filter.mp hr
  have hkeep2 : key r ∉ (rows.map key).filter
      (fun i => !(payload.map key).contains i) := by
    intro hmem
    simp at hkeep
    obtain ⟨hinrows, hnotp⟩ := List.mem_filter.mp hmem
    rcases hkeep with hall | ⟨x, hx, hkx⟩
    · obtain ⟨r0, hr0, hkr0⟩ := List.mem_map.mp hinrows
      exact hall r0 hr0 hkr0
    · have hxm : key r ∈ payload.map key := by
        rw [← hkx]
        exact List.mem_map_of_mem key hx
      simp [hxm] at hnotp
  unfold upsertBy at hup
  rcases List.mem_append.mp hup with hm | hm
  · obtain ⟨r0, hr0, hrr⟩ := List.mem_map.mp hm
    cases hf : payload.find? (fun p => key p == key r0) with
    | some p =>
      rw [hf] at hrr
      exact hrr ▸ List.mem_of_find?_eq_some hf
    | none =>
      rw [hf] at hrr
      exfalso
      apply hkeep2
      have hnotp : key r ∉ payload.map key := by
        intro hmem
        obtain ⟨p, hp, hkp⟩ := List.mem_map.mp hmem
        have := List.find?_eq_none.mp hf p hp
        rw [← hrr] at hkp
        simp [hkp] at this
      refine List.mem_filter.mpr ⟨?_, by simpa using hnotp⟩
      rw [← hrr]
      exact List.mem_map_of_mem key hr0
  · exact (List.mem_filter.mp hm).1

/-- After an upsert-then-delete, the surviving keys are exactly the payload
keys (the desired ids). -/
theorem upsertThenDelete_keys {α : Type} (key : α → String) (desired : List String)
    (rows payload : List α) (hdes : desired = payload.map key) (x : String) :
    x ∈ (upsertThenDelete key desired rows payload).map key ↔ x ∈ payload.map key := by
  constructor
  · intro hx
    obtain ⟨r, hr, hkr⟩ := List.mem_map.mp hx
    exact hkr ▸ List.mem_map_of_mem key
      (upsertThenDelete_subset key desired rows payload hdes r hr)
  · subst hdes
    intro hx
    by_cases hrow : x ∈ rows.map key
    · obtain ⟨r0, hr0, hkr0⟩ := List.mem_map.mp hrow
      have hfind : ∃ p, payload.find? (fun p => key p == key r0) = some p := by
        cases hf : payload.find? (fun p => key p == key r0) with
        | some p => exact ⟨p, rfl⟩
        | none =>
          exfalso
          obtain ⟨p, hp, hkp⟩ := List.mem_map.mp (hkr0 ▸ hx)
          have := List.find?_eq_none.mp hf p hp
          simp [hkp, hkr0] at this
      obtain ⟨p, hf⟩ := hfind
      have hbeq := List.find?_some hf
      have hkp : key p = key r0 := by simpa using hbeq
      refine List.mem_map.mpr ⟨p, ?_, by rw [hkp, hkr0]⟩
      refine List.mem_filter.mpr ⟨?_, ?_⟩
      · unfold upsertBy
        refine List.mem_append.mpr (Or.inl ?_)
        refine List.mem_map.mpr ⟨r0, hr0, ?_⟩
        rw [hf]
      · simp
        exact Or.inr ⟨p, List.mem_of_find?_eq_some hf, rfl⟩
    · obtain ⟨p, hp, hkp⟩ := List.mem_map.mp hx
      refine List.mem_map.mpr ⟨p, ?_, hkp⟩
      refine List.mem_filter.mpr ⟨?_, ?_⟩
      · unfold upsertBy
        refine List.mem_append.mpr (Or.inr ?_)
        refine List.mem_filter.mpr ⟨hp, ?_⟩
        simp
        intro r hr he
        exact hrow (by rw [← hkp, ← he]; exact List.mem_map_of_mem key hr)
      · simp
        exact Or.inr ⟨p, hp, rfl⟩

/-- When every existing id is still desired, the delete set is empty. -/
theorem filter_not_contains_nil (e desired : List String)
    (h : ∀ i ∈ e, i ∈ desired) :
    e.filter (fun i => !desired.contains i) = [] := by
  refine List.filter_eq_nil_iff.mpr ?_
  intro i hi
  simp [h i hi]

/-- Upserting a payload into a table that already consists exactly of the
payload rows (same key set, rows drawn from the payload, key-distinct
payload) changes nothing. -/
theorem upsertBy_self {α : Type} (key : α → String) (rows1 payload : List α)
    (hnd : (payload.map key).Nodup)
    (hsub : ∀ r ∈ rows1, r ∈ payload)
    (hcov : ∀ x ∈ payload.map key, x ∈ rows1.map key) :
    upsertBy key rows1 payload = rows1 := by
  unfold upsertBy
  have hmapped : rows1.map (fun r =>
      match payload.find? (fun p => key p == key r) with
      | some p => p
      | none => r) = rows1 := by
    conv_rhs => rw [← List.map_id rows1]
    refine List.map_congr_left ?_
    intro r hr
    rw [find?_key_eq_of_nodup key payload r hnd (hsub r hr)]
    rfl
  have hfiltered : payload.filter
      (fun p => !(rows1.any (fun r => key r == key p))) = [] := by
    refine List.filter_eq_nil_iff.mpr ?_
    intro p hp
    have hkmem : key p ∈ rows1.map key := hcov _ (List.mem_map_of_mem key hp)
    obtain ⟨r, hr, hkr⟩ := List.mem_map.mp hkmem
    have hany : rows1.any (fun r => key r == key p) = true :=
      List.any_eq_true.mpr ⟨r, hr, by simp [hkr]⟩
    simp [hany]
  rw [hmapped, hfiltered, List.append_nil]

/-- A second upsert-then-delete of the same payload is the identity. -/
theorem upsertThenDelete_idem {α : Type} (key : α → String) (desired : List String)
    (rows1 payload : List α) (hdes : desired = payload.map key)
    (hnd : (payload.map key).Nodup)
    (hsub : ∀ r ∈ rows1, r ∈ payload)
    (hcov : ∀ x ∈ payload.map key, x ∈ rows1.map key) :
    upsertThenDelete key desired rows1 payload = rows1
    ∧ (rows1.map key).filter (fun i => !desired.contains i) = [] := by
  have htd : (rows1.map key).filter (fun i => !desired.contains i) = [] := by
    refine filter_not_contains_nil _ _ ?_
    intro i hi
    rw [hdes]
    obtain ⟨r, hr, hkr⟩ := List.mem_map.mp hi
    exact hkr ▸ List.mem_map_of_mem key (hsub r hr)
  refine ⟨?_, htd⟩
  unfold upsertThenDelete
  rw [htd]
  have : (upsertBy key rows1 payload).filter
      (fun r => !(List.contains [] (key r))) = upsertBy key rows1 payload := by
    simp
  rw [this]
  exact upsertBy_self key rows1 payload hnd hsub hcov

/-- The ids of the admin category payload are exactly the desired category
ids. -/
theorem categoriesPayload_keys (cats : List Category) (uid : String) :
    (categoriesPayload cats uid).map (fun r => r.id) = desiredCategoryIds cats := by
  unfold categoriesPayload desiredCategoryIds
  rw [List.map_map]
  have h1 : ((fun r : CatRow => r.id) ∘ fun ic : Nat × Category =>
      (⟨ic.2.id, ic.2.title, ic.1, uid⟩ : CatRow)) =
      ((fun c : Category => c.id) ∘ Prod.snd) := rfl
  rw [h1, ← List.map_map, List.enum_map_snd]

/-- The ids of the admin problem payload are exactly the desired problem
ids. -/
theorem problemsPayload_keys (cats : List Category) (uid : String) :
    (problemsPayload cats uid).map (fun r => r.id) = desiredProblemIds cats := by
  unfold problemsPayload desiredProblemIds
  induction cats with
  | nil => rfl
  | cons c cs ih =>
    simp only [List.flatMap_cons, List.map_append, List.map_map] at ih ⊢
    rw [ih]; rfl

/-- C4: the admin save is idempotent.  With key-distinct desired ids, after
`save(C)` the remote id sets equal exactly the ids of `C`; a second
`save(C)` leaves the remote state identical, issues zero delete operations,
and issues exactly the same two upserts again (zero extra upserts). -/
theorem adminSave_idempotent (s0 : AdminRemote) (cats : List Category) (uid : String)
    (hndC : (desiredCategoryIds cats).Nodup) (hndP : (desiredProblemIds cats).Nodup) :
    (adminSaveApply (adminSaveApply s0 cats uid).1 cats uid).1 =
        (adminSaveApply s0 cats uid).1
    ∧ (adminSaveApply (adminSaveApply s0 cats uid).1 cats uid).2 =
        [Op.upsertCategories (categoriesPayload cats uid),
         Op.upsertProblems (problemsPayload cats uid)]
    ∧ (∀ ids,
        Op.deleteProblems ids ∉ (adminSaveApply (adminSaveApply s0 cats uid).1 cats uid).2
        ∧ Op.deleteCategories ids ∉ (adminSaveApply (adminSaveApply s0 cats uid).1 cats uid).2)
    ∧ (∀ x, x ∈ (adminSaveApply s0 cats uid).1.cats.map (fun r => r.id)
        ↔ x ∈ desiredCategoryIds cats)
    ∧ (∀ x, x ∈ (adminSaveApply s0 cats uid).1.probs.map (fun r => r.id)
        ↔ x ∈ desiredProblemIds cats) := by
  have hdesC : desiredCategoryIds cats = (categoriesPayload cats uid).map (fun r => r.id) :=
    (categoriesPayload_keys cats uid).symm
  have hdesP : desiredProblemIds cats = (problemsPayload cats uid).map (fun r => r.id) :=
    (problemsPayload_keys cats uid).symm
  have hndC2 : ((categoriesPayload cats uid).map (fun r => r.id)).Nodup := hdesC ▸ hndC
  have hndP2 : ((problemsPayload cats uid).map (fun r => r.id)).Nodup := hdesP ▸ hndP
  have hkeysC : ∀ x, x ∈ (adminSaveApply s0 cats uid).1.cats.map (fun r => r.id)
      ↔ x ∈ desiredCategoryIds cats := by
    intro x
    have hiff := upsertThenDelete_keys (fun r : CatRow => r.id) (desiredCategoryIds cats)
      s0.cats (categoriesPayload cats uid) hdesC x
    rw [adminSaveApply_fst_cats, hiff, categoriesPayload_keys]
  have hkeysP : ∀ x, x ∈ (adminSaveApply s0 cats uid).1.probs.map (fun r => r.id)
      ↔ x ∈ desiredProblemIds cats := by
    intro x
    have hiff := upsertThenDelete_keys (fun r : ProbRow => r.id) (desiredProblemIds cats)
      s0.probs (problemsPayload cats uid) hdesP x
    rw [adminSaveApply_fst_probs, hiff, problemsPayload_keys]
  have hsubC : ∀ r ∈ (adminSaveApply s0 cats uid).1.cats, r ∈ categoriesPayload cats uid := by
    rw [adminSaveApply_fst_cats]
    exact upsertThenDelete_subset _ _ _ _ hdesC
  have hsubP : ∀ r ∈ (adminSaveApply s0 cats uid).1.probs, r ∈ problemsPayload cats uid := by
    rw [adminSaveApply_fst_probs]
    exact upsertThenDelete_subset _ _ _ _ hdesP
  have hcovC : ∀ x ∈ (categoriesPayload cats uid).map (fun r => r.id),
      x ∈ (adminSaveApply s0 cats uid).1.cats.map (fun r => r.id) := by
    intro x hx
    exact (hkeysC x).mpr (hdesC ▸ hx)
  have hcovP : ∀ x ∈ (problemsPayload cats uid).map (fun r => r.id),
      x ∈ (adminSaveApply s0 cats uid).1.probs.map (fun r => r.id) := by
    intro x hx
    exact (hkeysP x).mpr (hdesP ▸ hx)
  have hidemC := upsertThenDelete_idem (fun r : CatRow => r.id) (desiredCategoryIds cats)
    (adminSaveApply s0 cats uid).1.cats (categoriesPayload cats uid) hdesC hndC2 hsubC hcovC
  have hidemP := upsertThenDelete_idem (fun r : ProbRow => r.id) (desiredProblemIds cats)
    (adminSaveApply s0 cats uid).1.probs (problemsPayload cats uid) hdesP hndP2 hsubP hcovP
  have h2c : (adminSaveApply (adminSaveApply s0 cats uid).1 cats uid).1.cats =
      (adminSaveApply s0 cats uid).1.cats := by
    rw [adminSaveApply_fst_cats]
    exact hidemC.1
  have h2p : (adminSaveApply (adminSaveApply s0 cats uid).1 cats uid).1.probs =
      (adminSaveApply s0 cats uid).1.probs := by
    rw [adminSaveApply_fst_probs]
    exact hidemP.1
  have hcdel : categoriesToDelete ((adminSaveApply s0 cats uid).1.cats.map (fun r => r.id))
      cats = [] := hidemC.2
  have hpdel : problemsToDelete ((adminSaveApply s0 cats uid).1.probs.map (fun r => r.id))
      cats = [] := hidemP.2
  have htr2 : (adminSaveApply (adminSaveApply s0 cats uid).1 cats uid).2 =
      [Op.upsertCategories (categoriesPayload cats uid),
       Op.upsertProblems (problemsPayload cats uid)] := by
    show adminSaveOps _ _ cats uid = _
    simp [adminSaveOps, hcdel, hpdel]
  refine ⟨?_, htr2, ?_, hkeysC, hkeysP⟩
  · have : (adminSaveApply (adminSaveApply s0 cats uid).1 cats uid).1 =
        (⟨(adminSaveApply s0 cats uid).1.cats, (adminSaveApply s0 cats uid).1.probs⟩ :
          AdminRemote) := by
      rw [← h2c, ← h2p]
    exact this
  · intro ids
    rw [htr2]
    simp

/-- C4 witness: a concrete double save from a remote state holding one
stale category row leaves the state fixed. -/
theorem adminSave_idempotent_witness :
    (adminSaveApply (adminSaveApply ⟨[⟨"old", "Old", 0, "u1"⟩], []⟩ [demoCat] "u1").1
        [demoCat] "u1").1
      = (adminSaveApply ⟨[⟨"old", "Old", 0, "u1"⟩], []⟩ [demoCat] "u1").1 :=
  (adminSave_idempotent ⟨[⟨"old", "Old", 0, "u1"⟩], []⟩ [demoCat] "u1"
    (by decide) (by decide)).1
